import Mathlib

/-!
Verification development for the lead-generation script (`gemini_analyze.py`).

The script's helper functions are shallowly embedded here:
* strings are Lean `String`s / `List Char`s; Python regular-expression
  character classes `\w` / `\s` are modelled at the ASCII level
  (`isWordChar` / `isSpaceChar`), matching CPython's behaviour on the
  ASCII inputs the script is designed for;
* Python floats are modelled as exact rationals (`ℚ`); the `float(...)`
  literal grammar (optional sign, digits, optional fraction, optional
  exponent, surrounding whitespace) is embedded in `pyFloat`
  (the special forms `inf` / `nan` and underscore separators are treated
  as unparsable);
* missing (`NaN`) cells are modelled as `Option.none`.
-/

attribute [local semireducible] Rat.mul Rat.add Rat.sub Rat.inv Rat.ofScientific

/-- Python `\s` at the ASCII level: space, tab, newline, carriage return,
vertical tab, form feed. -/
def isSpaceChar (c : Char) : Bool :=
  c = ' ' || c = '\t' || c = '\n' || c = '\r' || c = '\x0b' || c = '\x0c'

/-- Python `\w` at the ASCII level: letters, digits and underscore. -/
def isWordChar (c : Char) : Bool :=
  c.isAlphanum || c = '_'

/-- Python `str.lower()` (ASCII). -/
def lowerL (l : List Char) : List Char := l.map Char.toLower

/-- Python `str.strip()`: remove leading and trailing whitespace. -/
def pyStripL (l : List Char) : List Char :=
  ((l.dropWhile isSpaceChar).reverse.dropWhile isSpaceChar).reverse

/-- Python `re.sub(r'\s+', ' ', _)`: each maximal run of whitespace
characters becomes a single space. -/
def collapseSpaces : List Char → List Char
  | [] => []
  | [c] => if isSpaceChar c then [' '] else [c]
  | a :: b :: rest =>
    if isSpaceChar a && isSpaceChar b then collapseSpaces (b :: rest)
    else (if isSpaceChar a then ' ' else a) :: collapseSpaces (b :: rest)

/-- Invariant left by `collapseSpaces`: every whitespace character is a
plain space and no two adjacent characters are both whitespace. -/
def noRuns : List Char → Bool
  | [] => true
  | [a] => !isSpaceChar a || a == ' '
  | a :: b :: rest =>
    (!isSpaceChar a || (a == ' ' && !isSpaceChar b)) && noRuns (b :: rest)

/-- Python `re.sub(r'[^\w\s]', '', _)`: keep only word characters and
whitespace. -/
def keepWordSpace (l : List Char) : List Char :=
  l.filter (fun c => isWordChar c || isSpaceChar c)

/-- Whether the regex word boundary `\b` holds next to a word character,
given the character on the other side (`none` = string edge). -/
def boundaryOk : Option Char → Bool
  | none => true
  | some c => !isWordChar c

/-- The legal-entity suffix vocabulary of
`re.sub(r'\b(inc|llc|ltd|corp|corporation|plc|gmbh|ag|co)\b\.?$', '', name)`. -/
def suffixTokens : List (List Char) :=
  (["inc", "llc", "ltd", "corp", "corporation", "plc", "gmbh", "ag", "co"] :
    List String).map String.toList

/-- One candidate match of the suffix regex: the string ends with
`tok ++ rest` (where `rest` accounts for the optional `\.` and for `$`
matching before a final newline), the boundary `\b` in front of `tok`
holds, and the part of `rest` not consumed by the match (`keep`) stays. -/
def stripAttempt (l tok rest keep : List Char) : Option (List Char) :=
  let suff := tok ++ rest
  let n := l.length - suff.length
  if suff.length ≤ l.length ∧ l.drop n = suff ∧ boundaryOk (l.take n).getLast? then
    some (l.take n ++ keep)
  else none

/-- The four ways `\.?$` can close the suffix regex: at the very end with
or without a period, or (since `$` also matches before a final newline)
before a trailing newline, with or without a period. -/
def restForms : List (List Char × List Char) :=
  [([], []), (['.'], []), (['\n'], ['\n']), (['.', '\n'], ['\n'])]

/-- Python `re.sub(r'\b(inc|llc|ltd|corp|corporation|plc|gmbh|ag|co)\b\.?$', '', name)`.
At most one token/closing combination can match, so trying them in order is
faithful to the regex engine. -/
def stripLegalSuffix (l : List Char) : List Char :=
  (suffixTokens.findSome? fun tok =>
    restForms.findSome? fun pr => stripAttempt l tok pr.1 pr.2).getD l

/-- `preprocess_company_name` from `gemini_analyze.py`: lower-case, strip a
trailing legal-entity suffix, remove punctuation, collapse whitespace,
trim. `none` models a `NaN` cell. -/
def preprocess_company_name (name : Option String) : String :=
  match name with
  | none => ""
  | some n =>
    String.mk (pyStripL (collapseSpaces (keepWordSpace
      (pyStripL (stripLegalSuffix (lowerL n.toList))))))

/-- `SENIORITY_KEYWORDS` from `gemini_analyze.py` (insertion order kept). -/
def SENIORITY_KEYWORDS : List (String × Int) :=
  [("ceo", 100), ("chief executive officer", 100),
   ("cto", 95), ("chief technology officer", 95),
   ("cfo", 95), ("chief financial officer", 95),
   ("coo", 95), ("chief operating officer", 95),
   ("cio", 95), ("chief information officer", 95),
   ("cmo", 95), ("chief marketing officer", 95),
   ("chief", 90),
   ("president", 85),
   ("founder", 85),
   ("partner", 80),
   ("vp", 75), ("vice president", 75),
   ("evp", 78), ("executive vice president", 78),
   ("svp", 76), ("senior vice president", 76),
   ("principal", 70),
   ("head", 65),
   ("director", 60),
   ("manager", 40),
   ("lead", 30),
   ("board member", 100),
   ("investor", 100)]

/-- `NEGATIVE_KEYWORDS` from `gemini_analyze.py`. -/
def NEGATIVE_KEYWORDS : List (String × Int) :=
  [("assistant to", -20), ("intern", -50), ("former", -100), ("ex-", -100)]

/-- Python's substring test `k in l` on strings, as lists of characters. -/
def isSubstringOf (k : List Char) : List Char → Bool
  | [] => k.isEmpty
  | c :: cs => k.isPrefixOf (c :: cs) || isSubstringOf k cs

/-- Scan for `re.search(r'\b' + k + r'\b', l)` (the keywords begin and end
with word characters): `prev` is the character just before the current
position. -/
def wbAux (k : List Char) (prev : Option Char) : List Char → Bool
  | [] => boundaryOk prev && k.isEmpty
  | c :: cs =>
    (boundaryOk prev && k.isPrefixOf (c :: cs) &&
      boundaryOk ((c :: cs).drop k.length).head?) ||
    wbAux k (some c) cs

/-- Whole-word occurrence of keyword `k` in `l`
(`re.search(r'\b' + re.escape(k) + r'\b', l)`). -/
def wordBoundarySearch (k : List Char) (l : List Char) : Bool := wbAux k none l

/-- `assign_seniority_score` from `gemini_analyze.py`. -/
def assign_seniority_score (title : Option String) : Int :=
  match title with
  | none => 0
  | some t =>
    let tl := lowerL t.toList
    let score : Int := NEGATIVE_KEYWORDS.foldl
      (fun s kv => if isSubstringOf kv.1.toList tl then s + kv.2 else s) 0
    let highest : Int := SENIORITY_KEYWORDS.foldl
      (fun h kv => if wordBoundarySearch kv.1.toList tl then max h kv.2 else h) 0
    let score2 := if score > -50 then score + highest else score
    if score2 ≥ -50 then max score2 0 else score2

/-- ASCII decimal digit. -/
def isDigitChar (c : Char) : Bool := c.isDigit

/-- Value of a string of decimal digits. -/
def digitsToNat (l : List Char) : ℕ :=
  l.foldl (fun n c => 10 * n + (c.toNat - 48)) 0

/-- Exponent tail of a float literal: a non-empty all-digit string; the
mantissa is scaled by the (possibly negated) power of ten. -/
def parseExpDigits (m : ℚ) (neg : Bool) (ds : List Char) : Option ℚ :=
  if ds ≠ [] ∧ ds.all isDigitChar then
    some (if neg then m / 10 ^ digitsToNat ds else m * 10 ^ digitsToNat ds)
  else none

/-- Optional exponent part of a float literal (`e`/`E`, optional sign,
digits); anything else trailing makes the literal invalid. -/
def parseExp (m : ℚ) (rest : List Char) : Option ℚ :=
  if rest = [] then some m
  else if rest.head? = some 'e' ∨ rest.head? = some 'E' then
    let t := rest.tail
    if t.head? = some '+' then parseExpDigits m false t.tail
    else if t.head? = some '-' then parseExpDigits m true t.tail
    else parseExpDigits m false t
  else none

/-- Mantissa of a float literal: `digits`, `digits.`, `digits.digits` or
`.digits`; returns its exact value and the unconsumed remainder. -/
def parseMantissa (l : List Char) : Option (ℚ × List Char) :=
  let ip := l.takeWhile isDigitChar
  let r1 := l.dropWhile isDigitChar
  if r1.head? = some '.' then
    let t := r1.tail
    let fp := t.takeWhile isDigitChar
    let r2 := t.dropWhile isDigitChar
    if ip = [] ∧ fp = [] then none
    else some ((digitsToNat ip : ℚ) + mkRat (digitsToNat fp) (10 ^ fp.length), r2)
  else if ip = [] then none
  else some ((digitsToNat ip : ℚ), r1)

/-- Unsigned float literal: mantissa followed by an optional exponent. -/
def parseUnsignedFloat (l : List Char) : Option ℚ :=
  match parseMantissa l with
  | none => none
  | some mr => parseExp mr.1 mr.2

/-- Python `float(str)` on finite decimal literals, as an exact rational:
surrounding whitespace is ignored, then an optional sign precedes the
unsigned literal.  (`inf`/`nan` and underscore separators are modelled as
unparsable.) -/
def pyFloat (l : List Char) : Option ℚ :=
  let s := pyStripL l
  if s.head? = some '+' then parseUnsignedFloat s.tail
  else if s.head? = some '-' then (parseUnsignedFloat s.tail).map (fun q => -q)
  else parseUnsignedFloat s

/-- `str(value).strip().upper().replace('$', '').replace(',', '')` from
`clean_market_cap`. -/
def cleanedCap (v : String) : List Char :=
  ((pyStripL v.toList).map Char.toUpper).filter (fun c => !(c = '$' || c = ','))

/-- `clean_market_cap` from `gemini_analyze.py`: `'B' in value` scales the
`B`-less remainder by 1e9, else `'M' in value` scales the `M`-less
remainder by 1e6, else the value is parsed as plain dollars; a failed
parse yields `none`. -/
def clean_market_cap (value : Option String) : Option ℚ :=
  match value with
  | none => none
  | some v =>
    let w := cleanedCap v
    if w.contains 'B' then
      (pyFloat (w.filter (fun c => !(c = 'B')))).map (fun q => q * 1000000000)
    else if w.contains 'M' then
      (pyFloat (w.filter (fun c => !(c = 'M')))).map (fun q => q * 1000000)
    else pyFloat w

/-- `MIN_MARKET_CAP_USD` from `gemini_analyze.py`. -/
def MIN_MARKET_CAP_USD : ℚ := 50000000

/-- `MAX_MARKET_CAP_USD` from `gemini_analyze.py`. -/
def MAX_MARKET_CAP_USD : ℚ := 100000000

/-- `FUZZY_MATCH_THRESHOLD` from `gemini_analyze.py`. -/
def FUZZY_MATCH_THRESHOLD : ℕ := 100

/-- `MIN_SENIORITY_SCORE` from `gemini_analyze.py`. -/
def MIN_SENIORITY_SCORE : Int := 60

/-- One row of `Companies.csv` (the two columns the script requires). -/
structure CompanyRow where
  companyName : Option String
  marketCapRaw : Option String
deriving DecidableEq

/-- The derived `Market Cap (USD)` column. -/
def capUsd (r : CompanyRow) : Option ℚ := clean_market_cap r.marketCapRaw

/-- The pandas mask `(cap >= MIN) & (cap <= MAX)`; a missing (`NaN`) cap
compares false on both sides, hence is excluded without error. -/
def capInRange : Option ℚ → Bool
  | none => false
  | some c => decide (MIN_MARKET_CAP_USD ≤ c) && decide (c ≤ MAX_MARKET_CAP_USD)

/-- `df_companies_filtered` from `gemini_analyze.py`. -/
def df_companies_filtered (companies : List CompanyRow) : List CompanyRow :=
  companies.filter (fun r => capInRange (capUsd r))

/-- The derived `Clean Company Name` column. -/
def cleanName (r : CompanyRow) : String := preprocess_company_name r.companyName

/-- `target_company_names` from `gemini_analyze.py`. -/
def target_company_names (companies : List CompanyRow) : List String :=
  (df_companies_filtered companies).map cleanName

/-- `target_company_map` from `gemini_analyze.py`, as the association list
the dict is built from (later entries shadow earlier ones). -/
def target_company_map (companies : List CompanyRow) : List (String × Option String) :=
  (df_companies_filtered companies).map (fun r => (cleanName r, r.companyName))

/-- `market_cap_map` from `gemini_analyze.py`. -/
def market_cap_map (companies : List CompanyRow) : List (String × Option ℚ) :=
  (df_companies_filtered companies).map (fun r => (cleanName r, capUsd r))

/-- Python dict lookup on an insertion-ordered association list: the most
recently inserted binding for the key wins. -/
def dictGet {α : Type} (m : List (String × α)) (k : String) : Option α :=
  (m.reverse.find? (fun p => p.1 == k)).map Prod.snd

/-- One row of `LinkedIn.csv` (the four columns the script requires). -/
structure ConnRow where
  firstName : Option String
  lastName : Option String
  company : Option String
  position : Option String
deriving DecidableEq

/-- A matched connection: the source row enriched with the matching data
the loop attaches (`best_match` is the loop's local variable of the same
role). -/
structure MatchedConnection where
  row : ConnRow
  cleanCompany : String
  bestMatch : String
  matchScore : ℕ
  matchedName : Option String
  matchedCap : Option ℚ
deriving DecidableEq

/-- The max-scoring scan underlying `extractOne`: fold over the remaining
choices, replacing the incumbent only on a strictly larger score. -/
def pickBest (scorer : String → String → ℕ) (q : String)
    (cs : List String) (b0 : String × ℕ) : String × ℕ :=
  cs.foldl (fun best x => if best.2 < scorer q x then (x, scorer q x) else best) b0

/-- `thefuzz.process.extractOne`: best-scoring choice, earliest choice
winning ties (a strictly larger score replaces the incumbent); `none` on
an empty choice list.  The third-party similarity scorer
(`fuzz.token_sort_ratio`) is an explicit parameter. -/
def extractOne (scorer : String → String → ℕ) (q : String)
    (choices : List String) : Option (String × ℕ) :=
  match choices with
  | [] => none
  | c :: cs => some (pickBest scorer q cs (c, scorer q c))

/-- The `(best_match, score)` pair the loop stores for a clean name:
the `extractOne` result, or `(None, 0)` when there is no result. -/
def extractPair (scorer : String → String → ℕ) (targets : List String)
    (k : String) : Option String × ℕ :=
  match extractOne scorer k targets with
  | some bs => (some bs.1, bs.2)
  | none => (none, 0)

/-- Running maximum of similarity scores, from a given starting value. -/
def foldMax (scorer : String → String → ℕ) (q : String) (ts : List String) (a : ℕ) : ℕ :=
  ts.foldl (fun m t => max m (scorer q t)) a

/-- The best similarity score of `q` against all reference names. -/
def bestScore (scorer : String → String → ℕ) (q : String) (ts : List String) : ℕ :=
  foldMax scorer q ts 0

/-- One iteration of the matching loop of `gemini_analyze.py` (lines
184-211): skip empty clean names, consult the fuzzy-match cache, fill it
on a miss, and append a matched record when the best match is truthy and
its score reaches the threshold. -/
def processRow (scorer : String → String → ℕ) (targets : List String)
    (tmap : List (String × Option String)) (cmap : List (String × Option ℚ))
    (st : List (String × (Option String × ℕ)) × List MatchedConnection)
    (row : ConnRow) : List (String × (Option String × ℕ)) × List MatchedConnection :=
  let clean := preprocess_company_name row.company
  if clean = "" then st
  else
    let res : (Option String × ℕ) × List (String × (Option String × ℕ)) :=
      match st.1.find? (fun p => p.1 == clean) with
      | some p => (p.2, st.1)
      | none =>
        (extractPair scorer targets clean,
          (clean, extractPair scorer targets clean) :: st.1)
    match res.1.1 with
    | none => (res.2, st.2)
    | some b =>
      if b ≠ "" ∧ FUZZY_MATCH_THRESHOLD ≤ res.1.2 then
        (res.2, st.2 ++ [⟨row, clean, b, res.1.2,
          (dictGet tmap b).getD none, (dictGet cmap b).getD none⟩])
      else (res.2, st.2)

/-- `matched_connections` from `gemini_analyze.py`: the matching loop over
all source rows, starting from an empty cache and an empty result list. -/
def matched_connections (scorer : String → String → ℕ)
    (companies : List CompanyRow) (rows : List ConnRow) : List MatchedConnection :=
  (rows.foldl
    (processRow scorer (target_company_names companies)
      (target_company_map companies) (market_cap_map companies))
    ([], [])).2

/-- Cache-free description of one loop iteration: what the loop appends
for a given row (the cache is pure memoisation, see
`matched_connections_eq_filterMap`). -/
def rowMatch (scorer : String → String → ℕ) (companies : List CompanyRow)
    (row : ConnRow) : Option MatchedConnection :=
  let clean := preprocess_company_name row.company
  if clean = "" then none
  else
    match (extractPair scorer (target_company_names companies) clean).1 with
    | none => none
    | some b =>
      if b ≠ "" ∧ FUZZY_MATCH_THRESHOLD ≤
          (extractPair scorer (target_company_names companies) clean).2 then
        some ⟨row, clean, b,
          (extractPair scorer (target_company_names companies) clean).2,
          (dictGet (target_company_map companies) b).getD none,
          (dictGet (market_cap_map companies) b).getD none⟩
      else none

/-- The `Seniority Score` column attached to each matched record. -/
def withSeniority (l : List MatchedConnection) : List (MatchedConnection × Int) :=
  l.map (fun m => (m, assign_seniority_score m.row.position))

/-- `df_matched = df_matched[df_matched['Seniority Score'] >= 0]`. -/
def df_matched_nonneg (l : List MatchedConnection) : List (MatchedConnection × Int) :=
  (withSeniority l).filter (fun p => decide (0 ≤ p.2))

/-- The pandas ascending sort key on `Matched Company Name`, as the
code-point sequence of the name (`none` = `NaN`). -/
def nameKeyL (m : MatchedConnection) : Option (List Char) :=
  match m.matchedName with
  | none => none
  | some s => some s.toList

/-- Strict ascending comparison of two sort keys: code-point
lexicographic on present names; a missing name (`NaN`) sorts last. -/
def keyLT : Option (List Char) → Option (List Char) → Bool
  | some a, some b => decide (a < b)
  | some _, none => true
  | none, _ => false

/-- The sort order of `df_matched_sorted`: matched official name
ascending, seniority score descending. -/
def sortRel (a b : MatchedConnection × Int) : Prop :=
  keyLT (nameKeyL a.1) (nameKeyL b.1) = true ∨
    (nameKeyL a.1 = nameKeyL b.1 ∧ b.2 ≤ a.2)

instance sortRelDecidable (a b : MatchedConnection × Int) : Decidable (sortRel a b) := by
  unfold sortRel; infer_instance

/-- Boolean form of `sortRel`, as needed by the (stable) merge sort that
models `sort_values(by=['Matched Company Name', 'Seniority Score'],
ascending=[True, False])`. -/
def sortLE (a b : MatchedConnection × Int) : Bool := decide (sortRel a b)

/-- `df_matched_sorted` from `gemini_analyze.py`. -/
def df_matched_sorted (l : List MatchedConnection) : List (MatchedConnection × Int) :=
  (df_matched_nonneg l).mergeSort sortLE

/-- `df_potential_contacts` from `gemini_analyze.py`: the emitted,
already-sorted sequence, filtered to the minimum seniority score. -/
def df_potential_contacts (l : List MatchedConnection) : List (MatchedConnection × Int) :=
  (df_matched_sorted l).filter (fun p => decide (MIN_SENIORITY_SCORE ≤ p.2))

/-- Modelled from the spec: `penaltyTotal`, the sum of the penalties of
all negative phrases occurring as substrings of the lower-cased title. -/
def spec_penaltyTotal (tl : List Char) : Int :=
  ((NEGATIVE_KEYWORDS.filter (fun kv => isSubstringOf kv.1.toList tl)).map Prod.snd).sum

/-- Modelled from the spec: `bestPositive`, the maximum weight among the
positive phrases matching as whole words (0 if none matched). -/
def spec_bestPositive (tl : List Char) : Int :=
  ((SENIORITY_KEYWORDS.filter
    (fun kv => wordBoundarySearch kv.1.toList tl)).map Prod.snd).foldl max 0

/-- Modelled from the spec: the title score as §4.2 words it, built from
`spec_penaltyTotal` and `spec_bestPositive` with the negation and clamp
rules. -/
def spec_titleScore (title : Option String) : Int :=
  match title with
  | none => 0
  | some t =>
    let tl := lowerL t.toList
    let raw := if spec_penaltyTotal tl > -50
      then spec_penaltyTotal tl + spec_bestPositive tl
      else spec_penaltyTotal tl
    if raw ≥ -50 then max raw 0 else raw

/-- Characters that can appear in a successfully parsed float literal. -/
def floatChar (c : Char) : Bool :=
  isSpaceChar c || isDigitChar c || c = '+' || c = '-' || c = '.' || c = 'e' || c = 'E'

/-- Fixture: reference row whose cap parses to exactly `MIN_MARKET_CAP_USD`. -/
def rowCapMin : CompanyRow := ⟨some "MinCo", some "$50,000,000"⟩

/-- Fixture: reference row whose cap parses to exactly `MAX_MARKET_CAP_USD`. -/
def rowCapMax : CompanyRow := ⟨some "MaxCo", some "100M"⟩

/-- Fixture: reference row one cent below the minimum cap. -/
def rowCapBelow : CompanyRow := ⟨some "BelowCo", some "$49,999,999.99"⟩

/-- Fixture: reference row one cent above the maximum cap. -/
def rowCapAbove : CompanyRow := ⟨some "AboveCo", some "$100,000,000.01"⟩

/-- Fixture: reference row with an unparsable cap. -/
def rowCapBad : CompanyRow := ⟨some "BadCo", some "abc"⟩

/-- Fixture scorer: 100 on equal strings, 0 otherwise (stands in for the
token-sort similarity in concrete instantiations; the pipeline theorems
hold for every scorer). -/
def exactScorer : String → String → ℕ := fun a b => if a == b then 100 else 0

/-- Fixture: first of two reference companies normalizing to "acme". -/
def dupCompanyA : CompanyRow := ⟨some "Acme", some "60M"⟩

/-- Fixture: second of two reference companies normalizing to "acme". -/
def dupCompanyB : CompanyRow := ⟨some "Acme Inc", some "70M"⟩

/-- Fixture: source connection at "Acme". -/
def dupRow : ConnRow := ⟨some "Jo", some "Doe", some "Acme", some "CEO"⟩

/-- Fixture: the matched record the pipeline produces for `dupRow` against
`[dupCompanyA, dupCompanyB]` (both normalize to "acme"; the later row's
official name and cap win). -/
def mDup : MatchedConnection :=
  ⟨dupRow, "acme", "acme", 100, some "Acme Inc", some 70000000⟩

/-- Fixture: a matched Director (seniority 60) at "Acme Corp". -/
def mcDir : MatchedConnection :=
  ⟨⟨some "A", some "B", some "Acme", some "Director"⟩, "acme", "acme", 100,
    some "Acme Corp", some 60000000⟩

/-- Fixture: a matched Partner (seniority 80) at "Acme Corp". -/
def mcPart : MatchedConnection :=
  ⟨⟨some "C", some "D", some "Acme", some "Partner"⟩, "acme", "acme", 100,
    some "Acme Corp", some 60000000⟩

set_option maxRecDepth 16000

lemma foldl_add_if_filter (p : String × Int → Bool) :
    ∀ (l : List (String × Int)) (a : Int),
      l.foldl (fun s kv => if p kv then s + kv.2 else s) a
        = a + ((l.filter p).map Prod.snd).sum := by
  intro l
  induction l with
  | nil => intro a; simp
  | cons x xs ih =>
    intro a
    cases hp : p x with
    | false => simp [hp, ih]
    | true => simp [hp, ih, add_assoc]

lemma foldl_max_if_filter (p : String × Int → Bool) :
    ∀ (l : List (String × Int)) (a : Int),
      l.foldl (fun h kv => if p kv then max h kv.2 else h) a
        = ((l.filter p).map Prod.snd).foldl max a := by
  intro l
  induction l with
  | nil => intro a; simp
  | cons x xs ih =>
    intro a
    cases hp : p x with
    | false => simp [hp, ih]
    | true => simp [hp, ih]

/-- Claim C1 (corrected): the worked example `score("CEO") = 100` holds,
but `score("Senior Vice President")` is 85, not 76: the standalone
positive phrase "president" (weight 85) also matches as a whole word, and
the scorer takes the maximum matching weight. -/
theorem claim_c1_counterexample :
    assign_seniority_score (some "Senior Vice President") ≠ 76 := by decide

/-- Claim C1 (amended): `score("CEO") = 100` and
`score("Senior Vice President") = 85` under whole-word matching with the
maximum matching weight. -/
theorem claim_c1_amended :
    assign_seniority_score (some "CEO") = 100 ∧
    assign_seniority_score (some "Senior Vice President") = 85 :=
  ⟨by decide, by decide⟩

/-- Claim C3: for every title, the scorer computes exactly the spec's
negation/clamp rule: `penaltyTotal` is the sum over negative substring
matches, `bestPositive` the maximum whole-word positive weight,
`rawScore` adds `bestPositive` only when `penaltyTotal > -50`, and the
result is `max(rawScore, 0)` when `rawScore ≥ -50` and `rawScore`
unchanged otherwise; absent input yields 0. -/
theorem claim_c3_negation_clamp_rule :
    (∀ title : Option String, assign_seniority_score title = spec_titleScore title) ∧
    assign_seniority_score none = 0 := by
  constructor
  · intro title
    cases title with
    | none => rfl
    | some t =>
      simp only [assign_seniority_score, spec_titleScore, spec_penaltyTotal,
        spec_bestPositive]
      rw [foldl_add_if_filter, foldl_max_if_filter]
      simp
  · rfl

lemma contains_iff_mem {l : List Char} {a : Char} : l.contains a = true ↔ a ∈ l :=
  List.elem_iff

lemma contains_eq_false {l : List Char} {a : Char} (h : a ∉ l) : l.contains a = false := by
  cases hc : l.contains a with
  | false => rfl
  | true => exact absurd (contains_iff_mem.mp hc) h

lemma mem_pyStripL {c : Char} {l : List Char} (h : c ∈ pyStripL l) : c ∈ l := by
  unfold pyStripL at h
  have h1 : c ∈ (l.dropWhile isSpaceChar).reverse :=
    (List.dropWhile_sublist isSpaceChar).subset (List.mem_reverse.mp h)
  exact (List.dropWhile_sublist isSpaceChar).subset (List.mem_reverse.mp h1)

lemma space_or_mem_pyStripL {c : Char} {l : List Char} (h : c ∈ l) :
    isSpaceChar c = true ∨ c ∈ pyStripL l := by
  rw [← List.takeWhile_append_dropWhile isSpaceChar l] at h
  rcases List.mem_append.mp h with h1 | h2
  · exact Or.inl (List.mem_takeWhile_imp h1)
  · have h3 : c ∈ (l.dropWhile isSpaceChar).reverse := List.mem_reverse.mpr h2
    rw [← List.takeWhile_append_dropWhile isSpaceChar
      (l.dropWhile isSpaceChar).reverse] at h3
    rcases List.mem_append.mp h3 with h4 | h5
    · exact Or.inl (List.mem_takeWhile_imp h4)
    · exact Or.inr (by unfold pyStripL; exact List.mem_reverse.mpr h5)

lemma parseExpDigits_mem {m q : ℚ} {neg : Bool} {ds : List Char}
    (h : parseExpDigits m neg ds = some q) : ∀ c ∈ ds, floatChar c = true := by
  unfold parseExpDigits at h
  split at h
  · rename_i hcond
    intro c hc
    have hd := List.all_eq_true.mp hcond.2 c hc
    simp [floatChar, hd]
  · exact absurd h (by simp)

lemma parseExp_mem {m q : ℚ} {rest : List Char} (h : parseExp m rest = some q) :
    ∀ c ∈ rest, floatChar c = true := by
  unfold parseExp at h
  split at h
  · rename_i hnil; subst hnil; intro c hc; cases hc
  · split at h
    · rename_i hne hee
      rcases rest with _ | ⟨c0, t⟩
      · cases hne rfl
      · simp only [List.head?_cons, Option.some.injEq, List.tail_cons] at h hee
        intro c hc
        rcases List.mem_cons.mp hc with rfl | hct
        · rcases hee with rfl | rfl <;> simp [floatChar]
        · split at h
          · rename_i hplus
            rcases t with _ | ⟨c1, t'⟩
            · cases hct
            · simp only [List.head?_cons, Option.some.injEq] at hplus
              subst hplus
              simp only [List.tail_cons] at h
              rcases List.mem_cons.mp hct with rfl | hct'
              · simp [floatChar]
              · exact parseExpDigits_mem h c hct'
          · split at h
            · rename_i hminus
              rcases t with _ | ⟨c1, t'⟩
              · cases hct
              · simp only [List.head?_cons, Option.some.injEq] at hminus
                subst hminus
                simp only [List.tail_cons] at h
                rcases List.mem_cons.mp hct with rfl | hct'
                · simp [floatChar]
                · exact parseExpDigits_mem h c hct'
            · exact parseExpDigits_mem h c hct
    · exact absurd h (by simp)

lemma parseMantissa_mem {l : List Char} {mr : ℚ × List Char}
    (h : parseMantissa l = some mr) : ∀ c ∈ l, floatChar c = true ∨ c ∈ mr.2 := by
  unfold parseMantissa at h
  intro c hc
  rw [← List.takeWhile_append_dropWhile isDigitChar l] at hc
  rcases List.mem_append.mp hc with hip | hr1
  · exact Or.inl (by simp [floatChar, List.mem_takeWhile_imp hip])
  · rcases hd : l.dropWhile isDigitChar with _ | ⟨c0, t⟩ <;> rw [hd] at h hr1
    · cases hr1
    · simp only [List.head?_cons, Option.some.injEq, List.tail_cons] at h
      by_cases hc0 : c0 = '.'
      · rw [if_pos hc0] at h
        split at h
        · exact absurd h (by simp)
        · have hmr := Option.some.inj h
          rcases List.mem_cons.mp hr1 with rfl | hct
          · subst hc0; exact Or.inl (by simp [floatChar])
          · rw [← List.takeWhile_append_dropWhile isDigitChar t] at hct
            rcases List.mem_append.mp hct with hfp | hr2
            · exact Or.inl (by simp [floatChar, List.mem_takeWhile_imp hfp])
            · exact Or.inr (by rw [← hmr]; exact hr2)
      · rw [if_neg (by simp [hc0])] at h
        split at h
        · exact absurd h (by simp)
        · have hmr := Option.some.inj h
          exact Or.inr (by rw [← hmr]; exact hr1)

lemma parseUnsignedFloat_mem {l : List Char} {q : ℚ}
    (h : parseUnsignedFloat l = some q) : ∀ c ∈ l, floatChar c = true := by
  unfold parseUnsignedFloat at h
  rcases hm : parseMantissa l with _ | mr <;> rw [hm] at h
  · exact absurd h (by simp)
  · intro c hc
    rcases parseMantissa_mem hm c hc with h1 | h2
    · exact h1
    · exact parseExp_mem h c h2

lemma pyFloat_mem {l : List Char} {q : ℚ} (h : pyFloat l = some q) :
    ∀ c ∈ l, floatChar c = true := by
  intro c hc
  rcases space_or_mem_pyStripL hc with hs | hm
  · simp [floatChar, hs]
  · simp only [pyFloat] at h
    rcases hsl : pyStripL l with _ | ⟨c0, t⟩ <;> rw [hsl] at h hm
    · cases hm
    · simp only [List.head?_cons, Option.some.injEq, List.tail_cons] at h
      by_cases h0 : c0 = '+'
      · rw [if_pos h0] at h
        rcases List.mem_cons.mp hm with rfl | hct
        · subst h0; simp [floatChar]
        · exact parseUnsignedFloat_mem h c hct
      · rw [if_neg h0] at h
        by_cases h1 : c0 = '-'
        · rw [if_pos h1] at h
          rcases Option.map_eq_some'.mp h with ⟨q0, hq0, _⟩
          rcases List.mem_cons.mp hm with rfl | hct
          · subst h1; simp [floatChar]
          · exact parseUnsignedFloat_mem hq0 c hct
        · rw [if_neg h1] at h
          exact parseUnsignedFloat_mem h c hm

lemma not_mem_of_pyFloat {l : List Char} {q : ℚ} (h : pyFloat l = some q)
    {c : Char} (hc : floatChar c = false) : c ∉ l := fun hmem => by
  rw [pyFloat_mem h c hmem] at hc; cases hc

lemma filter_ne_eq_self {l : List Char} {a : Char} (h : a ∉ l) :
    l.filter (fun c => !(c = a)) = l :=
  List.filter_eq_self.mpr (fun c hc => by
    simp only [Bool.not_eq_eq_eq_not, Bool.not_true, decide_eq_false_iff_not]
    exact fun e => h (e ▸ hc))

/-- Claim C4: the market-cap parsing contract: after stripping `$` and
`,` (and upper-casing), a `B` suffix scales by 1e9, an `M` suffix by 1e6,
a value with neither letter is taken as plain dollars, an unparsable
value yields `none`; in particular the four worked examples hold
(numbers modelled as exact rationals). -/
theorem claim_c4_cap_parsing :
    clean_market_cap (some "$55.3M") = some 55300000 ∧
    clean_market_cap (some "98B") = some 98000000000 ∧
    clean_market_cap (some "120000000") = some 120000000 ∧
    clean_market_cap (some "abc") = none ∧
    (∀ (s : String) (w : List Char) (q : ℚ), cleanedCap s = w ++ ['B'] →
      pyFloat w = some q → clean_market_cap (some s) = some (q * 1000000000)) ∧
    (∀ (s : String) (w : List Char) (q : ℚ), cleanedCap s = w ++ ['M'] →
      pyFloat w = some q → clean_market_cap (some s) = some (q * 1000000)) ∧
    (∀ s : String, (cleanedCap s).contains 'B' = false →
      (cleanedCap s).contains 'M' = false →
      clean_market_cap (some s) = pyFloat (cleanedCap s)) := by
  refine ⟨by decide, by decide, by decide, by decide, ?_, ?_, ?_⟩
  · intro s w q hw hq
    have hBw : 'B' ∉ w := not_mem_of_pyFloat hq (by decide)
    have hcont : (w ++ ['B']).contains 'B' = true :=
      contains_iff_mem.mpr (List.mem_append.mpr (Or.inr (List.mem_singleton.mpr rfl)))
    have hfil : (w ++ ['B']).filter (fun c => !(c = 'B')) = w := by
      rw [List.filter_append, filter_ne_eq_self hBw]
      simp
    simp only [clean_market_cap, hw, hcont, if_true, hfil, hq, Option.map_some']
  · intro s w q hw hq
    have hBw : 'B' ∉ w := not_mem_of_pyFloat hq (by decide)
    have hMw : 'M' ∉ w := not_mem_of_pyFloat hq (by decide)
    have hnoB : (w ++ ['M']).contains 'B' = false := contains_eq_false (by
      intro hmem
      rcases List.mem_append.mp hmem with h1 | h2
      · exact hBw h1
      · simp at h2)
    have hcont : (w ++ ['M']).contains 'M' = true :=
      contains_iff_mem.mpr (List.mem_append.mpr (Or.inr (List.mem_singleton.mpr rfl)))
    have hfil : (w ++ ['M']).filter (fun c => !(c = 'M')) = w := by
      rw [List.filter_append, filter_ne_eq_self hMw]
      simp
    simp only [clean_market_cap, hw, hnoB, hcont, Bool.false_eq_true, if_false, if_true,
      hfil, hq, Option.map_some']
  · intro s hB hM
    simp only [clean_market_cap, hB, hM, Bool.false_eq_true, if_false]

/-- Claim C4 witness: the suffix clauses instantiated at `"5B"`. -/
theorem claim_c4_witness :
    clean_market_cap (some "5B") = some (5 * 1000000000) :=
  claim_c4_cap_parsing.2.2.2.2.1 "5B" ['5'] 5 (by decide) (by decide)

lemma parseMantissa_nonneg {l : List Char} {mr : ℚ × List Char}
    (h : parseMantissa l = some mr) : 0 ≤ mr.1 := by
  unfold parseMantissa at h
  dsimp only at h
  split at h
  · split at h
    · exact absurd h (by simp)
    · rw [← Option.some.inj h]
      exact add_nonneg (Nat.cast_nonneg _)
        (Rat.mkRat_nonneg (Int.natCast_nonneg _) _)
  · split at h
    · exact absurd h (by simp)
    · rw [← Option.some.inj h]
      exact Nat.cast_nonneg _

lemma parseExpDigits_nonneg {m q : ℚ} {neg : Bool} {ds : List Char}
    (hm : 0 ≤ m) (h : parseExpDigits m neg ds = some q) : 0 ≤ q := by
  unfold parseExpDigits at h
  split at h
  · rw [← Option.some.inj h]
    split
    · exact div_nonneg hm (by positivity)
    · exact mul_nonneg hm (by positivity)
  · exact absurd h (by simp)

lemma parseExp_nonneg {m q : ℚ} {rest : List Char}
    (hm : 0 ≤ m) (h : parseExp m rest = some q) : 0 ≤ q := by
  unfold parseExp at h
  split at h
  · exact (Option.some.inj h) ▸ hm
  · dsimp only at h
    split at h
    · split at h
      · exact parseExpDigits_nonneg hm h
      · split at h
        · exact parseExpDigits_nonneg hm h
        · exact parseExpDigits_nonneg hm h
    · exact absurd h (by simp)

lemma parseUnsignedFloat_nonneg {l : List Char} {q : ℚ}
    (h : parseUnsignedFloat l = some q) : 0 ≤ q := by
  unfold parseUnsignedFloat at h
  rcases hm : parseMantissa l with _ | mr <;> rw [hm] at h
  · exact absurd h (by simp)
  · exact parseExp_nonneg (parseMantissa_nonneg hm) h

lemma pyFloat_nonneg {l : List Char} {q : ℚ} (hminus : '-' ∉ l)
    (h : pyFloat l = some q) : 0 ≤ q := by
  simp only [pyFloat] at h
  rcases hsl : pyStripL l with _ | ⟨c0, t⟩ <;> rw [hsl] at h
  · simp only [List.head?_nil] at h
    rw [if_neg (by simp), if_neg (by simp)] at h
    exact parseUnsignedFloat_nonneg h
  · simp only [List.head?_cons, Option.some.injEq, List.tail_cons] at h
    by_cases h0 : c0 = '+'
    · rw [if_pos h0] at h
      exact parseUnsignedFloat_nonneg h
    · rw [if_neg h0] at h
      by_cases h1 : c0 = '-'
      · exfalso
        apply hminus
        apply mem_pyStripL
        rw [hsl, h1]
        exact List.mem_cons_self _ _
      · rw [if_neg h1] at h
        exact parseUnsignedFloat_nonneg h

/-- Claim C5 (corrected): a parsed cap need not be nonnegative: the input
`"-5"` parses successfully to the negative value -5. -/
theorem claim_c5_counterexample :
    clean_market_cap (some "-5") = some (-5) ∧ ¬ (0 ≤ (-5 : ℚ)) :=
  ⟨by decide, by decide⟩

/-- Claim C5 (amended): whenever `clean_market_cap` returns a numeric
value and the cleaned input contains no `-` character, the value is
nonnegative. -/
theorem claim_c5_amended (s : String) (q : ℚ)
    (h : clean_market_cap (some s) = some q)
    (hm : (cleanedCap s).contains '-' = false) : 0 ≤ q := by
  have hnm : '-' ∉ cleanedCap s := fun hmem => by
    rw [contains_iff_mem.mpr hmem] at hm; cases hm
  simp only [clean_market_cap] at h
  split at h
  · rcases Option.map_eq_some'.mp h with ⟨q0, hq0, rfl⟩
    have hsub : '-' ∉ (cleanedCap s).filter (fun c => !(c = 'B')) :=
      fun hx => hnm (List.mem_of_mem_filter hx)
    exact mul_nonneg (pyFloat_nonneg hsub hq0) (by norm_num)
  · split at h
    · rcases Option.map_eq_some'.mp h with ⟨q0, hq0, rfl⟩
      have hsub : '-' ∉ (cleanedCap s).filter (fun c => !(c = 'M')) :=
        fun hx => hnm (List.mem_of_mem_filter hx)
      exact mul_nonneg (pyFloat_nonneg hsub hq0) (by norm_num)
    · exact pyFloat_nonneg hnm h

/-- Claim C5 witness: the amended claim instantiated at `"7M"`. -/
theorem claim_c5_witness : (0 : ℚ) ≤ 7000000 :=
  claim_c5_amended "7M" 7000000 (by decide) (by decide)

/-- Claim C6: the market-cap range filter keeps exactly the rows whose
parsed cap lies in the inclusive band `[MIN, MAX]`; rows with an
unparsable (`none`) cap are excluded without error.  The concrete
instance shows both boundary caps retained and the one-cent-outside and
unparsable rows dropped. -/
theorem claim_c6_range_inclusive :
    (∀ (l : List CompanyRow) (r : CompanyRow),
      r ∈ df_companies_filtered l ↔
        r ∈ l ∧ ∃ c : ℚ, capUsd r = some c ∧
          MIN_MARKET_CAP_USD ≤ c ∧ c ≤ MAX_MARKET_CAP_USD) ∧
    df_companies_filtered [rowCapMin, rowCapBelow, rowCapAbove, rowCapBad, rowCapMax]
      = [rowCapMin, rowCapMax] := by
  constructor
  · intro l r
    rw [df_companies_filtered, List.mem_filter]
    constructor
    · rintro ⟨hmem, hcap⟩
      refine ⟨hmem, ?_⟩
      rcases hc : capUsd r with _ | c <;> rw [hc] at hcap
      · cases hcap
      · simp only [capInRange, Bool.and_eq_true, decide_eq_true_eq] at hcap
        exact ⟨c, rfl, hcap.1, hcap.2⟩
    · rintro ⟨hmem, c, hc, h1, h2⟩
      refine ⟨hmem, ?_⟩
      rw [hc]
      simp only [capInRange, Bool.and_eq_true, decide_eq_true_eq]
      exact ⟨h1, h2⟩
  · decide

lemma toLower_eq_self {c : Char} (h : ¬(c.toNat ≥ 65 ∧ c.toNat ≤ 90)) :
    c.toLower = c := by
  unfold Char.toLower
  exact if_neg h

lemma toLower_toLower (c : Char) : c.toLower.toLower = c.toLower := by
  by_cases h : c.toNat ≥ 65 ∧ c.toNat ≤ 90
  · have h1 : c.toLower = Char.ofNat (c.toNat + 32) := by
      unfold Char.toLower; exact if_pos h
    rw [h1]
    apply toLower_eq_self
    obtain ⟨ha, hb⟩ := h
    set n := c.toNat with hn
    interval_cases n <;> decide
  · rw [toLower_eq_self h, toLower_eq_self h]

lemma lowerL_eq_self {l : List Char} (h : ∀ c ∈ l, c.toLower = c) : lowerL l = l := by
  induction l with
  | nil => rfl
  | cons a t ih =>
    simp only [lowerL, List.map_cons]
    rw [h a (List.mem_cons_self _ _)]
    have ht : lowerL t = t := ih (fun c hc => h c (List.mem_cons_of_mem _ hc))
    simp only [lowerL] at ht
    rw [ht]

lemma mem_collapseSpaces {c : Char} {l : List Char} (h : c ∈ collapseSpaces l) :
    c = ' ' ∨ c ∈ l := by
  induction l using collapseSpaces.induct with
  | case1 => cases h
  | case2 a ha =>
    simp only [collapseSpaces, ha, if_true] at h
    exact Or.inl (by simpa using h)
  | case3 a ha =>
    simp only [collapseSpaces, ha, if_false] at h
    exact Or.inr h
  | case4 a b rest hab ih =>
    simp only [collapseSpaces, hab, if_true] at h
    rcases ih h with h1 | h2
    · exact Or.inl h1
    · exact Or.inr (List.mem_cons_of_mem a h2)
  | case5 a b rest hab ih =>
    simp only [collapseSpaces] at h
    rw [if_neg hab] at h
    rcases List.mem_cons.mp h with h1 | h2
    · by_cases hsa : isSpaceChar a
      · rw [if_pos hsa] at h1; exact Or.inl h1
      · rw [if_neg hsa] at h1
        exact Or.inr (by rw [h1]; exact List.mem_cons_self _ _)
    · rcases ih h2 with h3 | h4
      · exact Or.inl h3
      · exact Or.inr (List.mem_cons_of_mem a h4)

lemma stripAttempt_subset {l tok rest keep res : List Char}
    (hk : keep ⊆ rest) (h : stripAttempt l tok rest keep = some res) : res ⊆ l := by
  unfold stripAttempt at h
  dsimp only at h
  split at h
  · rename_i hcond
    obtain ⟨hlen, hdrop, hbound⟩ := hcond
    rw [← Option.some.inj h]
    intro c hc
    rcases List.mem_append.mp hc with h1 | h2
    · exact List.take_subset _ _ h1
    · have hm : c ∈ tok ++ rest := List.mem_append.mpr (Or.inr (hk h2))
      rw [← hdrop] at hm
      exact List.drop_subset _ _ hm
  · exact absurd h (by simp)

lemma mem_stripLegalSuffix {c : Char} {l : List Char} (h : c ∈ stripLegalSuffix l) :
    c ∈ l := by
  unfold stripLegalSuffix at h
  rcases hf : suffixTokens.findSome? (fun tok =>
      restForms.findSome? (fun pr => stripAttempt l tok pr.1 pr.2)) with _ | res
  · rw [hf] at h; exact h
  · rw [hf] at h
    obtain ⟨tok, _, htok⟩ := List.exists_of_findSome?_eq_some hf
    obtain ⟨pr, hpr, hatt⟩ := List.exists_of_findSome?_eq_some htok
    have hk : pr.2 ⊆ pr.1 := by
      fin_cases hpr <;> simp
    exact stripAttempt_subset hk hatt h

lemma dropWhile_idem (p : Char → Bool) (l : List Char) :
    (l.dropWhile p).dropWhile p = l.dropWhile p := by
  induction l with
  | nil => rfl
  | cons a t ih =>
    cases hp : p a with
    | true => simp [List.dropWhile_cons, hp, ih]
    | false => simp [List.dropWhile_cons, hp]

lemma dropWhile_eq_self_of_prefix {p : Char → Bool} {w v : List Char}
    (hpre : w <+: v) (hv : v.dropWhile p = v) : w.dropWhile p = w := by
  rcases w with _ | ⟨a, w'⟩
  · rfl
  · cases hp : p a with
    | false => simp [List.dropWhile_cons, hp]
    | true =>
      exfalso
      obtain ⟨r, hr⟩ := hpre
      rw [← hr, List.cons_append, List.dropWhile_cons, if_pos hp] at hv
      have h1 : (List.dropWhile p (w' ++ r)).length ≤ (w' ++ r).length :=
        (List.dropWhile_sublist p).length_le
      rw [hv] at h1
      simp only [List.length_cons] at h1
      omega

lemma pyStripL_prefixOf (l : List Char) : pyStripL l <+: l.dropWhile isSpaceChar := by
  unfold pyStripL
  have h1 : (l.dropWhile isSpaceChar).reverse.dropWhile isSpaceChar
      <:+ (l.dropWhile isSpaceChar).reverse := List.dropWhile_suffix _
  have h2 := List.reverse_prefix.mpr h1
  rwa [List.reverse_reverse] at h2

lemma pyStripL_eq_self {w : List Char} (h1 : w.dropWhile isSpaceChar = w)
    (h2 : w.reverse.dropWhile isSpaceChar = w.reverse) : pyStripL w = w := by
  unfold pyStripL
  rw [h1, h2, List.reverse_reverse]

lemma pyStripL_idem (l : List Char) : pyStripL (pyStripL l) = pyStripL l := by
  apply pyStripL_eq_self
  · exact dropWhile_eq_self_of_prefix (pyStripL_prefixOf l) (dropWhile_idem _ _)
  · show (pyStripL l).reverse.dropWhile isSpaceChar = (pyStripL l).reverse
    unfold pyStripL
    rw [List.reverse_reverse]
    exact dropWhile_idem _ _

lemma collapse_cons_ne_space (b : Char) (rest : List Char) (hb : isSpaceChar b = false) :
    ∃ tl, collapseSpaces (b :: rest) = b :: tl := by
  rcases rest with _ | ⟨r0, rs⟩
  · exact ⟨[], by simp [collapseSpaces, hb]⟩
  · exact ⟨collapseSpaces (r0 :: rs), by simp [collapseSpaces, hb]⟩

lemma noRuns_collapse (l : List Char) : noRuns (collapseSpaces l) = true := by
  induction l using collapseSpaces.induct with
  | case1 => rfl
  | case2 a ha =>
    simp only [collapseSpaces, ha, if_true]
    decide
  | case3 a ha =>
    simp only [collapseSpaces, ha, if_false]
    simp [noRuns, ha]
  | case4 a b rest hab ih =>
    simp only [collapseSpaces, hab, if_true]
    exact ih
  | case5 a b rest hab ih =>
    simp only [collapseSpaces]
    rw [if_neg hab]
    by_cases hsa : isSpaceChar a
    · rw [if_pos hsa]
      have hb : isSpaceChar b = false := by
        cases hsb : isSpaceChar b
        · rfl
        · exact absurd (by simp [hsa, hsb]) hab
      obtain ⟨tl, htl⟩ := collapse_cons_ne_space b rest hb
      rw [htl]
      rw [htl] at ih
      simp [noRuns, hb, ih]
    · rw [if_neg hsa]
      rcases hcb : collapseSpaces (b :: rest) with _ | ⟨x, xs⟩
      · simp [noRuns, hsa]
      · rw [hcb] at ih
        simp [noRuns, hsa, ih]

lemma noRuns_tail {a : Char} {l : List Char} (h : noRuns (a :: l) = true) :
    noRuns l = true := by
  rcases l with _ | ⟨b, t⟩
  · rfl
  · simp only [noRuns, Bool.and_eq_true] at h
    exact h.2

lemma noRuns_append_right {pre l : List Char} (h : noRuns (pre ++ l) = true) :
    noRuns l = true := by
  induction pre with
  | nil => simpa using h
  | cons x xs ih => exact ih (noRuns_tail (by simpa using h))

lemma noRuns_append_left {l r : List Char} (h : noRuns (l ++ r) = true) :
    noRuns l = true := by
  induction l using noRuns.induct with
  | case1 => rfl
  | case2 a =>
    rcases r with _ | ⟨y, ys⟩
    · simpa using h
    · simp only [List.cons_append, List.nil_append, noRuns, Bool.and_eq_true] at h
      obtain ⟨h1, _⟩ := h
      simp only [noRuns]
      cases hsa : isSpaceChar a
      · simp
      · simp [hsa] at h1 ⊢
        exact h1.1
  | case3 a b rest ih =>
    simp only [List.cons_append, noRuns, Bool.and_eq_true] at h ⊢
    obtain ⟨h1, h2⟩ := h
    refine ⟨h1, ih ?_⟩
    simpa using h2

lemma collapse_eq_self_of_noRuns {l : List Char} (h : noRuns l = true) :
    collapseSpaces l = l := by
  induction l using collapseSpaces.induct with
  | case1 => rfl
  | case2 a ha =>
    simp only [noRuns] at h
    simp only [collapseSpaces, ha, if_true]
    simp [ha] at h
    rw [h]
  | case3 a ha => simp [collapseSpaces, ha]
  | case4 a b rest hab ih =>
    exfalso
    simp only [noRuns, Bool.and_eq_true] at h
    obtain ⟨h1, _⟩ := h
    rw [Bool.and_eq_true] at hab
    obtain ⟨hsa, hsb⟩ := hab
    simp [hsa, hsb] at h1
  | case5 a b rest hab ih =>
    simp only [noRuns, Bool.and_eq_true] at h
    obtain ⟨h1, h2⟩ := h
    simp only [collapseSpaces]
    rw [if_neg hab, ih h2]
    by_cases hsa : isSpaceChar a
    · rw [if_pos hsa]
      simp [hsa] at h1
      rw [h1.1]
    · rw [if_neg hsa]

lemma noRuns_pyStripL {u : List Char} (h : noRuns u = true) :
    noRuns (pyStripL u) = true := by
  have hd : noRuns (u.dropWhile isSpaceChar) = true := by
    obtain ⟨pre, hp⟩ := @List.dropWhile_suffix Char u isSpaceChar
    rw [← hp] at h
    exact noRuns_append_right h
  obtain ⟨r, hr⟩ := pyStripL_prefixOf u
  rw [← hr] at hd
  exact noRuns_append_left hd

lemma preprocess_chars {s : String} {c : Char}
    (h : c ∈ (preprocess_company_name (some s)).toList) :
    c.toLower = c ∧ (isWordChar c || isSpaceChar c) = true := by
  have h0 : c ∈ pyStripL (collapseSpaces (keepWordSpace
      (pyStripL (stripLegalSuffix (lowerL s.toList))))) := h
  have h1 := mem_pyStripL h0
  rcases mem_collapseSpaces h1 with rfl | h2
  · exact ⟨by decide, by decide⟩
  · simp only [keepWordSpace] at h2
    constructor
    · have h3 : c ∈ pyStripL (stripLegalSuffix (lowerL s.toList)) :=
        List.mem_of_mem_filter h2
      have h4 := mem_stripLegalSuffix (mem_pyStripL h3)
      simp only [lowerL] at h4
      obtain ⟨c', _, hc'⟩ := List.mem_map.mp h4
      rw [← hc']
      exact toLower_toLower c'
    · have hp := List.of_mem_filter h2
      simpa using hp

/-- Claim C2 (corrected): name normalization is not idempotent: the input
"a inc inc" normalizes to "a inc" (only the final legal-entity suffix is
stripped), and normalizing again strips the now-final "inc", yielding
"a". -/
theorem claim_c2_counterexample :
    preprocess_company_name (some (preprocess_company_name (some "a inc inc")))
      ≠ preprocess_company_name (some "a inc inc") := by decide

/-- Claim C2 (amended): normalization is idempotent on every string whose
normalized form is not further changed by the legal-suffix-stripping step
(equivalently, whose normalized form does not itself end in one of the
suffix tokens as a final word, optionally followed by a period). -/
theorem claim_c2_amended (s : String)
    (hs : stripLegalSuffix (preprocess_company_name (some s)).toList
        = (preprocess_company_name (some s)).toList) :
    preprocess_company_name (some (preprocess_company_name (some s)))
      = preprocess_company_name (some s) := by
  have e : (preprocess_company_name (some s)).toList
      = pyStripL (collapseSpaces (keepWordSpace
          (pyStripL (stripLegalSuffix (lowerL s.toList))))) := rfl
  have hB : lowerL (preprocess_company_name (some s)).toList
      = (preprocess_company_name (some s)).toList :=
    lowerL_eq_self (fun c hc => (preprocess_chars hc).1)
  have hD : pyStripL (preprocess_company_name (some s)).toList
      = (preprocess_company_name (some s)).toList := by
    rw [e]; exact pyStripL_idem _
  have hE : keepWordSpace (preprocess_company_name (some s)).toList
      = (preprocess_company_name (some s)).toList :=
    List.filter_eq_self.mpr (fun c hc => (preprocess_chars hc).2)
  have hF : collapseSpaces (preprocess_company_name (some s)).toList
      = (preprocess_company_name (some s)).toList := by
    apply collapse_eq_self_of_noRuns
    rw [e]
    exact noRuns_pyStripL (noRuns_collapse _)
  show String.mk (pyStripL (collapseSpaces (keepWordSpace (pyStripL
      (stripLegalSuffix (lowerL (preprocess_company_name (some s)).toList))))))
    = preprocess_company_name (some s)
  rw [hB, hs, hD, hE, hF, hD]
  rfl

/-- Claim C2 witness: idempotence instantiated at "Acme Corp" (whose
normalized form "acme" ends in no suffix token). -/
theorem claim_c2_witness :
    preprocess_company_name (some (preprocess_company_name (some "Acme Corp")))
      = preprocess_company_name (some "Acme Corp") :=
  claim_c2_amended "Acme Corp" (by decide)

/-- Claim C10: no title score lies in `[-50, 0)`: every result is either
at least 0 (the clamp) or strictly below -50 (preserved strong
negation). -/
theorem claim_c10_no_gap_interval (title : Option String) :
    0 ≤ assign_seniority_score title ∨ assign_seniority_score title < -50 := by
  cases title with
  | none => left; simp [assign_seniority_score]
  | some t =>
    simp only [assign_seniority_score]
    split
    · split
      · left; exact le_max_right _ _
      · rename_i h2; right; exact lt_of_not_ge h2
    · split
      · left; exact le_max_right _ _
      · rename_i h2; right; exact lt_of_not_ge h2

lemma pickBest_cons (scorer : String → String → ℕ) (q x : String) (t : List String)
    (b0 : String × ℕ) :
    pickBest scorer q (x :: t) b0
      = pickBest scorer q t (if b0.2 < scorer q x then (x, scorer q x) else b0) := rfl

lemma foldMax_cons (scorer : String → String → ℕ) (q x : String) (t : List String)
    (a : ℕ) :
    foldMax scorer q (x :: t) a = foldMax scorer q t (max a (scorer q x)) := rfl

lemma pickBest_snd (scorer : String → String → ℕ) (q : String) :
    ∀ (cs : List String) (b0 : String × ℕ),
      (pickBest scorer q cs b0).2 = foldMax scorer q cs b0.2 := by
  intro cs
  induction cs with
  | nil => intro b0; rfl
  | cons x t ih =>
    intro b0
    rw [pickBest_cons, foldMax_cons]
    by_cases hx : b0.2 < scorer q x
    · rw [if_pos hx, ih (x, scorer q x)]
      congr 1
      exact (max_eq_right (le_of_lt hx)).symm
    · rw [if_neg hx, ih b0]
      congr 1
      exact (max_eq_left (not_lt.mp hx)).symm

lemma pickBest_fst_scorer (scorer : String → String → ℕ) (q : String) :
    ∀ (cs : List String) (b0 : String × ℕ), scorer q b0.1 = b0.2 →
      scorer q (pickBest scorer q cs b0).1 = (pickBest scorer q cs b0).2 := by
  intro cs
  induction cs with
  | nil => intro b0 h; exact h
  | cons x t ih =>
    intro b0 h
    rw [pickBest_cons]
    by_cases hx : b0.2 < scorer q x
    · rw [if_pos hx]; exact ih (x, scorer q x) rfl
    · rw [if_neg hx]; exact ih b0 h

lemma pickBest_fst_mem (scorer : String → String → ℕ) (q : String) :
    ∀ (cs : List String) (b0 : String × ℕ),
      (pickBest scorer q cs b0).1 = b0.1 ∨ (pickBest scorer q cs b0).1 ∈ cs := by
  intro cs
  induction cs with
  | nil => intro b0; exact Or.inl rfl
  | cons x t ih =>
    intro b0
    rw [pickBest_cons]
    by_cases hx : b0.2 < scorer q x
    · rw [if_pos hx]
      rcases ih (x, scorer q x) with h | h
      · right; rw [h]; exact List.mem_cons_self _ _
      · right; exact List.mem_cons_of_mem _ h
    · rw [if_neg hx]
      rcases ih b0 with h | h
      · left; exact h
      · right; exact List.mem_cons_of_mem _ h

lemma extractOne_spec (scorer : String → String → ℕ) (q : String)
    (c : String) (cs : List String) :
    ∃ bs, extractOne scorer q (c :: cs) = some bs ∧ scorer q bs.1 = bs.2 ∧
      bs.1 ∈ c :: cs ∧ bs.2 = bestScore scorer q (c :: cs) := by
  refine ⟨pickBest scorer q cs (c, scorer q c), rfl, ?_, ?_, ?_⟩
  · exact pickBest_fst_scorer scorer q cs (c, scorer q c) rfl
  · rcases pickBest_fst_mem scorer q cs (c, scorer q c) with h | h
    · rw [h]; exact List.mem_cons_self _ _
    · exact List.mem_cons_of_mem _ h
  · rw [pickBest_snd, bestScore, foldMax_cons, Nat.zero_max]

lemma extractOne_mem {scorer : String → String → ℕ} {q : String}
    {choices : List String} {bs : String × ℕ}
    (h : extractOne scorer q choices = some bs) : bs.1 ∈ choices := by
  rcases choices with _ | ⟨c, cs⟩
  · cases h
  · have h2 := Option.some.inj h
    rw [← h2]
    rcases pickBest_fst_mem scorer q cs (c, scorer q c) with h1 | h1
    · rw [h1]; exact List.mem_cons_self _ _
    · exact List.mem_cons_of_mem _ h1

lemma processRow_step (scorer : String → String → ℕ) (companies : List CompanyRow)
    (cache : List (String × (Option String × ℕ))) (acc : List MatchedConnection)
    (row : ConnRow)
    (hinv : ∀ kv ∈ cache, kv.2 = extractPair scorer (target_company_names companies) kv.1) :
    ∃ cache',
      processRow scorer (target_company_names companies)
        (target_company_map companies) (market_cap_map companies) (cache, acc) row
        = (cache', acc ++ (rowMatch scorer companies row).toList) ∧
      ∀ kv ∈ cache', kv.2 = extractPair scorer (target_company_names companies) kv.1 := by
  by_cases hcl : preprocess_company_name row.company = ""
  · refine ⟨cache, ?_, hinv⟩
    simp [processRow, rowMatch, hcl]
  · rcases hfind : cache.find? (fun p => p.1 == preprocess_company_name row.company)
      with _ | p
    · refine ⟨(preprocess_company_name row.company,
        extractPair scorer (target_company_names companies)
          (preprocess_company_name row.company)) :: cache, ?_, ?_⟩
      · simp only [processRow, hfind]
        rw [if_neg hcl]
        rcases hep : extractPair scorer (target_company_names companies)
          (preprocess_company_name row.company) with ⟨ob, sc⟩
        simp only [rowMatch, hep]
        rw [if_neg hcl]
        rcases ob with _ | b
        · simp
        · dsimp only
          by_cases hb : b ≠ "" ∧ FUZZY_MATCH_THRESHOLD ≤ sc <;> simp [hb]
      · intro kv hkv
        rcases List.mem_cons.mp hkv with rfl | h
        · rfl
        · exact hinv kv h
    · have hmem := List.mem_of_find?_eq_some hfind
      have hpred : p.1 = preprocess_company_name row.company := by
        have hps := List.find?_some hfind
        simpa using hps
      have hp2 : p.2 = extractPair scorer (target_company_names companies)
          (preprocess_company_name row.company) := by
        rw [← hpred]; exact hinv p hmem
      refine ⟨cache, ?_, hinv⟩
      simp only [processRow, hfind]
      rw [if_neg hcl]
      rw [hp2]
      rcases hep : extractPair scorer (target_company_names companies)
        (preprocess_company_name row.company) with ⟨ob, sc⟩
      simp only [rowMatch, hep]
      rw [if_neg hcl]
      rcases ob with _ | b
      · simp
      · dsimp only
        by_cases hb : b ≠ "" ∧ FUZZY_MATCH_THRESHOLD ≤ sc <;> simp [hb]

lemma processRow_loop (scorer : String → String → ℕ) (companies : List CompanyRow) :
    ∀ (rows : List ConnRow) (cache : List (String × (Option String × ℕ)))
      (acc : List MatchedConnection),
      (∀ kv ∈ cache, kv.2 = extractPair scorer (target_company_names companies) kv.1) →
      (rows.foldl (processRow scorer (target_company_names companies)
          (target_company_map companies) (market_cap_map companies)) (cache, acc)).2
        = acc ++ rows.filterMap (rowMatch scorer companies) := by
  intro rows
  induction rows with
  | nil => intro cache acc hinv; simp
  | cons row rt ih =>
    intro cache acc hinv
    obtain ⟨cache', hstep, hinv'⟩ := processRow_step scorer companies cache acc row hinv
    rw [List.foldl_cons, hstep, ih cache' _ hinv', List.filterMap_cons]
    rcases hrm : rowMatch scorer companies row with _ | rec <;> simp [hrm]

lemma matched_connections_eq_filterMap (scorer : String → String → ℕ)
    (companies : List CompanyRow) (rows : List ConnRow) :
    matched_connections scorer companies rows
      = rows.filterMap (rowMatch scorer companies) := by
  have h := processRow_loop scorer companies rows [] [] (by intro kv hkv; cases hkv)
  simpa [matched_connections] using h

lemma rowMatch_isSome_iff (scorer : String → String → ℕ) (companies : List CompanyRow)
    (row : ConnRow)
    (hemp : ∀ q, q ≠ "" → scorer q "" < FUZZY_MATCH_THRESHOLD)
    (hne : target_company_names companies ≠ []) :
    (rowMatch scorer companies row).isSome = true ↔
      (preprocess_company_name row.company ≠ "" ∧
        FUZZY_MATCH_THRESHOLD ≤ bestScore scorer (preprocess_company_name row.company)
          (target_company_names companies)) := by
  by_cases hcl : preprocess_company_name row.company = ""
  · simp [rowMatch, hcl]
  · rcases htn : target_company_names companies with _ | ⟨c, cs⟩
    · exact absurd htn hne
    · obtain ⟨bs, hbs, hsc, hmem, hbest⟩ :=
        extractOne_spec scorer (preprocess_company_name row.company) c cs
      have hep : extractPair scorer (target_company_names companies)
          (preprocess_company_name row.company) = (some bs.1, bs.2) := by
        rw [extractPair, htn, hbs]
      have hiff1 : (rowMatch scorer companies row).isSome = true ↔
          (bs.1 ≠ "" ∧ FUZZY_MATCH_THRESHOLD ≤ bs.2) := by
        simp only [rowMatch, hep]
        rw [if_neg hcl]
        by_cases hb : bs.1 ≠ "" ∧ FUZZY_MATCH_THRESHOLD ≤ bs.2 <;> simp [hb]
      rw [hiff1]
      constructor
      · rintro ⟨_, h2⟩
        refine ⟨hcl, ?_⟩
        rw [← hbest]
        exact h2
      · rintro ⟨_, h2⟩
        rw [← hbest] at h2
        refine ⟨?_, h2⟩
        intro hbe
        have hlt := hemp (preprocess_company_name row.company) hcl
        rw [← hbe, hsc] at hlt
        omega

/-- Claim C7: a matched record is produced for a source row exactly when
its normalized company name is non-empty and the best similarity score
against the filtered reference names reaches `FUZZY_MATCH_THRESHOLD`
(scores at the threshold included, below excluded); empty normalized
names are skipped.  Stated for every scorer whose score of a non-empty
string against the empty string is below the threshold (true of
`fuzz.token_sort_ratio`), and for the program state where the filtered
reference set is non-empty (otherwise the script exits before
matching). -/
theorem claim_c7_threshold (scorer : String → String → ℕ)
    (companies : List CompanyRow) (rows : List ConnRow)
    (hemp : ∀ q, q ≠ "" → scorer q "" < FUZZY_MATCH_THRESHOLD)
    (hne : target_company_names companies ≠ []) :
    matched_connections scorer companies rows
      = rows.filterMap (rowMatch scorer companies) ∧
    ∀ row : ConnRow, (rowMatch scorer companies row).isSome = true ↔
      (preprocess_company_name row.company ≠ "" ∧
        FUZZY_MATCH_THRESHOLD ≤ bestScore scorer (preprocess_company_name row.company)
          (target_company_names companies)) :=
  ⟨matched_connections_eq_filterMap scorer companies rows,
    fun row => rowMatch_isSome_iff scorer companies row hemp hne⟩

/-- Claim C7 witness: the characterization instantiated at a concrete
scorer, reference set and source row. -/
theorem claim_c7_witness :
    matched_connections exactScorer [dupCompanyA] [dupRow]
      = [dupRow].filterMap (rowMatch exactScorer [dupCompanyA]) ∧
    ∀ row : ConnRow, (rowMatch exactScorer [dupCompanyA] row).isSome = true ↔
      (preprocess_company_name row.company ≠ "" ∧
        FUZZY_MATCH_THRESHOLD ≤ bestScore exactScorer
          (preprocess_company_name row.company) (target_company_names [dupCompanyA])) :=
  claim_c7_threshold exactScorer [dupCompanyA] [dupRow]
    (fun q hq => by simp [exactScorer, FUZZY_MATCH_THRESHOLD, hq])
    (by decide)

lemma find?_eq_head?_filter {α : Type} (p : α → Bool) :
    ∀ l : List α, l.find? p = (l.filter p).head? := by
  intro l
  induction l with
  | nil => rfl
  | cons a t ih =>
    by_cases hp : p a = true
    · rw [List.find?_cons_of_pos _ hp, List.filter_cons_of_pos hp, List.head?_cons]
    · rw [List.find?_cons_of_neg _ hp, List.filter_cons_of_neg hp, ih]

lemma dictGet_map_eq {α : Type} (f : CompanyRow → α) (l : List CompanyRow) (k : String) :
    dictGet (l.map (fun r => (cleanName r, f r))) k
      = ((l.filter (fun r => cleanName r == k)).getLast?).map f := by
  unfold dictGet
  rw [← List.map_reverse, List.find?_map, Option.map_map]
  have hpred : ((fun p : String × α => p.1 == k) ∘ (fun r => (cleanName r, f r)))
      = fun r => cleanName r == k := rfl
  rw [hpred, find?_eq_head?_filter, List.filter_reverse, List.head?_reverse]
  rfl

/-- Claim C9: every matched record carries the official name and market
cap of the last reference company (in source iteration order among the
filtered rows) whose normalized name equals the record's best-match
key. -/
theorem claim_c9_last_duplicate_wins (scorer : String → String → ℕ)
    (companies : List CompanyRow) (rows : List ConnRow) :
    ∀ m ∈ matched_connections scorer companies rows,
      ∃ r : CompanyRow,
        ((df_companies_filtered companies).filter
            (fun cr => cleanName cr == m.bestMatch)).getLast? = some r ∧
        m.matchedName = r.companyName ∧ m.matchedCap = capUsd r := by
  intro m hm
  rw [matched_connections_eq_filterMap] at hm
  obtain ⟨row, _, hrow⟩ := List.mem_filterMap.mp hm
  simp only [rowMatch] at hrow
  by_cases hcl : preprocess_company_name row.company = ""
  · rw [if_pos hcl] at hrow; cases hrow
  · rw [if_neg hcl] at hrow
    rcases hep : extractPair scorer (target_company_names companies)
        (preprocess_company_name row.company) with ⟨ob, sc⟩
    rw [hep] at hrow
    dsimp only at hrow
    rcases ob with _ | b
    · cases hrow
    · have hrow2 : (if b ≠ "" ∧ FUZZY_MATCH_THRESHOLD ≤ sc then
          some (⟨row, preprocess_company_name row.company, b, sc,
            (dictGet (target_company_map companies) b).getD none,
            (dictGet (market_cap_map companies) b).getD none⟩ : MatchedConnection)
          else none) = some m := hrow
      by_cases hb : b ≠ "" ∧ FUZZY_MATCH_THRESHOLD ≤ sc
      · rw [if_pos hb] at hrow2
        have hm2 := Option.some.inj hrow2
        have hbmem : b ∈ target_company_names companies := by
          unfold extractPair at hep
          rcases hex : extractOne scorer (preprocess_company_name row.company)
              (target_company_names companies) with _ | bs
          · rw [hex] at hep; simp at hep
          · rw [hex] at hep
            have h1 : some bs.1 = some b := congrArg Prod.fst hep
            have h2 := extractOne_mem hex
            rw [Option.some.inj h1] at h2
            exact h2
        obtain ⟨r0, hr0mem, hr0⟩ := List.mem_map.mp hbmem
        have hnil : (df_companies_filtered companies).filter
            (fun cr => cleanName cr == b) ≠ [] := by
          intro hnil
          have hin : r0 ∈ (df_companies_filtered companies).filter
              (fun cr => cleanName cr == b) :=
            List.mem_filter.mpr ⟨hr0mem, by simp [hr0]⟩
          rw [hnil] at hin
          cases hin
        rcases hgl : ((df_companies_filtered companies).filter
            (fun cr => cleanName cr == b)).getLast? with _ | r
        · exact absurd (List.getLast?_eq_none_iff.mp hgl) hnil
        · refine ⟨r, ?_, ?_, ?_⟩
          · rw [← hm2]; exact hgl
          · rw [← hm2]
            show (dictGet (target_company_map companies) b).getD none = r.companyName
            rw [show target_company_map companies
                = (df_companies_filtered companies).map
                    (fun r => (cleanName r, r.companyName)) from rfl]
            rw [dictGet_map_eq, hgl]
            rfl
          · rw [← hm2]
            show (dictGet (market_cap_map companies) b).getD none = capUsd r
            rw [show market_cap_map companies
                = (df_companies_filtered companies).map
                    (fun r => (cleanName r, capUsd r)) from rfl]
            rw [dictGet_map_eq, hgl]
            rfl
      · rw [if_neg hb] at hrow2; cases hrow2

/-- Claim C9 witness: two reference companies normalize to "acme"; the
matched record carries the second one's official name and cap. -/
theorem claim_c9_witness :
    ∃ r : CompanyRow,
      ((df_companies_filtered [dupCompanyA, dupCompanyB]).filter
          (fun cr => cleanName cr == mDup.bestMatch)).getLast? = some r ∧
      mDup.matchedName = r.companyName ∧ mDup.matchedCap = capUsd r :=
  claim_c9_last_duplicate_wins exactScorer [dupCompanyA, dupCompanyB] [dupRow] mDup
    (by decide)

lemma keyLT_trans {x y z : Option (List Char)} (h1 : keyLT x y = true)
    (h2 : keyLT y z = true) : keyLT x z = true := by
  rcases x with _ | a <;> rcases y with _ | b <;> rcases z with _ | c <;>
    simp_all [keyLT]
  exact lt_trans h1 h2

lemma keyLT_eq_of_not {x y : Option (List Char)} (h1 : keyLT x y = false)
    (h2 : keyLT y x = false) : x = y := by
  rcases x with _ | a <;> rcases y with _ | b <;> simp_all [keyLT]
  exact le_antisymm h2 h1

lemma sortLE_trans : ∀ a b c : MatchedConnection × Int,
    sortLE a b = true → sortLE b c = true → sortLE a c = true := by
  intro a b c h1 h2
  simp only [sortLE, decide_eq_true_eq, sortRel] at h1 h2 ⊢
  rcases h1 with h1 | ⟨he1, hs1⟩ <;> rcases h2 with h2 | ⟨he2, hs2⟩
  · exact Or.inl (keyLT_trans h1 h2)
  · exact Or.inl (by rw [← he2]; exact h1)
  · exact Or.inl (by rw [he1]; exact h2)
  · exact Or.inr ⟨he1.trans he2, le_trans hs2 hs1⟩

lemma sortLE_total : ∀ a b : MatchedConnection × Int,
    (sortLE a b || sortLE b a) = true := by
  intro a b
  simp only [sortLE, Bool.or_eq_true, decide_eq_true_eq, sortRel]
  cases h1 : keyLT (nameKeyL a.1) (nameKeyL b.1)
  · cases h2 : keyLT (nameKeyL b.1) (nameKeyL a.1)
    · have he := keyLT_eq_of_not h1 h2
      rcases le_total a.2 b.2 with h | h
      · exact Or.inr (Or.inr ⟨he.symm, h⟩)
      · exact Or.inl (Or.inr ⟨he, h⟩)
    · exact Or.inr (Or.inl rfl)
  · exact Or.inl (Or.inl rfl)

/-- Claim C8: the emitted sequence is pairwise ordered by matched
official name ascending and, within equal names, by seniority score
descending; every emitted record meets `MIN_SENIORITY_SCORE`; and the
concrete two-record instance at one company with scores 80 and 60 is
emitted in that order. -/
theorem claim_c8_sorted_output :
    (∀ l : List MatchedConnection, List.Pairwise sortRel (df_potential_contacts l)) ∧
    (∀ (l : List MatchedConnection) (p : MatchedConnection × Int),
      p ∈ df_potential_contacts l → MIN_SENIORITY_SCORE ≤ p.2) ∧
    df_potential_contacts [mcDir, mcPart] = [(mcPart, 80), (mcDir, 60)] := by
  refine ⟨?_, ?_, ?_⟩
  · intro l
    have hs := @List.sorted_mergeSort _ sortLE sortLE_trans sortLE_total
      (df_matched_nonneg l)
    have hp : List.Pairwise sortRel (df_matched_sorted l) := by
      refine List.Pairwise.imp ?_ hs
      intro a b hab
      exact of_decide_eq_true hab
    exact List.Pairwise.sublist (List.filter_sublist _) hp
  · intro l p hp
    rw [df_potential_contacts] at hp
    have h2 := (List.mem_filter.mp hp).2
    simpa using h2
  · have h1 : df_matched_nonneg [mcDir, mcPart] = [(mcDir, 60), (mcPart, 80)] := by
      decide
    have h2 : sortLE (mcDir, 60) (mcPart, 80) = false := by decide
    have h3 : sortLE (mcPart, 80) (mcDir, 60) = true := by decide
    rw [df_potential_contacts, df_matched_sorted, h1]
    simp [List.mergeSort, h2, h3]
    decide

/-- Claim C8 witness: the emitted 80-score record meets the minimum
seniority threshold. -/
theorem claim_c8_witness : MIN_SENIORITY_SCORE ≤ ((mcPart, (80 : Int)).2) :=
  claim_c8_sorted_output.2.1 [mcDir, mcPart] (mcPart, 80)
    (by rw [claim_c8_sorted_output.2.2]; decide)
